import Mathlib

set_option maxHeartbeats 1000000

/-!
Shallow embedding of the tikv-cli repository: a thin TiKV client adapter
(`TikvClient.Get` / `TikvClient.Set` / `TikvClient.Delete` / `TikvClient.Scan`)
and the REPL command shell (`hexEscape`, `processLine`, and the `command.*`
handlers). Keys and values are byte sequences, modelled as `List Nat`; the
external TiKV store is modelled as an association list of (key, value)
entries kept in ascending lexicographic key order, matching the spec's data
model (opaque byte strings, lexicographic key order, one ephemeral
transaction per adapter call).
-/

/-- A byte string (Go `[]byte`). -/
abbrev Bytes := List Nat

/-- The external key-value store, modelled as an association list of
(key, value) entries; the store invariant is strict ascending key order. -/
abbrev Store := List (Bytes × Bytes)

/-- Go `bytes.Compare a b < 0`: strict lexicographic order on byte strings. -/
def bytesLt : Bytes → Bytes → Bool
  | [], [] => false
  | [], _ :: _ => true
  | _ :: _, [] => false
  | a :: as, b :: bs => if a < b then true else if b < a then false else bytesLt as bs

/-- Go `bytes.HasPrefix key bg`: `bg` is a leading segment of `key`. -/
def bytesHasPfx : Bytes → Bytes → Bool
  | _, [] => true
  | [], _ :: _ => false
  | k :: ks, b :: bs => k == b && bytesHasPfx ks bs

/-- Point read in the modelled store (TiDB `txn.Get`; `none` is NotFound). -/
def storeGet : Store → Bytes → Option Bytes
  | [], _ => none
  | (k', v') :: rest, k => if k = k' then some v' else storeGet rest k

/-- Point write in the modelled store, keeping entries in ascending key order. -/
def storeSet : Store → Bytes → Bytes → Store
  | [], k, v => [(k, v)]
  | (k', v') :: rest, k, v =>
    if bytesLt k k' then (k, v) :: (k', v') :: rest
    else if k = k' then (k, v) :: rest
    else (k', v') :: storeSet rest k v

/-- Tombstone write: removes the key from the modelled store. -/
def storeDelete : Store → Bytes → Store
  | [], _ => []
  | (k', v') :: rest, k =>
    if k = k' then storeDelete rest k else (k', v') :: storeDelete rest k

/-- A buffered write of a TiDB transaction. -/
inductive WriteOp
  | put (k v : Bytes)
  | del (k : Bytes)

/-- Apply one buffered write to the store. -/
def applyWrite (s : Store) : WriteOp → Store
  | WriteOp.put k v => storeSet s k v
  | WriteOp.del k => storeDelete s k

/-- Apply a transaction's buffered writes, in order. -/
def applyWrites (s : Store) (ws : List WriteOp) : Store := ws.foldl applyWrite s

/-- An ephemeral transaction: the snapshot taken at `store.Begin()` plus the
writes buffered so far (applied to the store only on commit). -/
structure Txn where
  snapshot : Store
  writes : List WriteOp

/-- `store.Begin()`: a fresh transaction over the current store. -/
def Store.begin (s : Store) : Txn := ⟨s, []⟩

/-- `txn.Get`: read through the transaction (snapshot overlaid with the
buffered writes; the adapter reads before writing, so the overlay is empty). -/
def Txn.get (t : Txn) (k : Bytes) : Option Bytes :=
  storeGet (applyWrites t.snapshot t.writes) k

/-- `txn.Set`: buffer a put. -/
def Txn.set (t : Txn) (k v : Bytes) : Txn := ⟨t.snapshot, t.writes ++ [WriteOp.put k v]⟩

/-- `txn.Delete`: buffer a tombstone. -/
def Txn.delete (t : Txn) (k : Bytes) : Txn := ⟨t.snapshot, t.writes ++ [WriteOp.del k]⟩

/-- `txn.Commit`: apply the transaction's buffered writes to the store. -/
def Txn.commit (s : Store) (t : Txn) : Store := applyWrites s t.writes

/-- `TikvClient.Get` (adapter): begin a transaction, read one key, return the
raw bytes; a missing key surfaces as the library's not-exist error; there is
no write and no commit. `beginFails` injects a `store.Begin()` failure. The
second component of the pair is the global store after the call. -/
def TikvClient.Get (beginFails : Bool) (s : Store) (key : Bytes) :
    Except String Bytes × Store :=
  if beginFails then (Except.error "begin failed", s)
  else
    match Txn.get (Store.begin s) key with
    | some v => (Except.ok v, s)
    | none => (Except.error "key not exist", s)

/-- `TikvClient.Set`: begin a transaction, buffer one write, commit.
`beginFails` / `commitFails` inject the two failure points of the source. -/
def TikvClient.Set (beginFails commitFails : Bool) (s : Store) (key val : Bytes) :
    Except String Store :=
  if beginFails then Except.error "begin failed"
  else
    let t := Txn.set (Store.begin s) key val
    if commitFails then Except.error "commit failed"
    else Except.ok (Txn.commit s t)

/-- `TikvClient.Delete`: begin a transaction, buffer one tombstone, commit. -/
def TikvClient.Delete (beginFails commitFails : Bool) (s : Store) (key : Bytes) :
    Except String Store :=
  if beginFails then Except.error "begin failed"
  else
    let t := Txn.delete (Store.begin s) key
    if commitFails then Except.error "commit failed"
    else Except.ok (Txn.commit s t)

/-- `txn.Seek(begin)`: iterator over the snapshot's entries with key ≥ begin,
in stored (ascending) order. -/
def seek (s : Store) (bg : Bytes) : List (Bytes × Bytes) :=
  s.filter fun e => !bytesLt e.1 bg

/-- Why the scan loop ended. -/
inductive ScanStop
  | exhausted | limitZero | visitorFalse | nextError
  deriving DecidableEq

/-- Result of the scan loop: the entries the visitor was invoked on, the
final value of `limit`, and why iteration ended. -/
structure ScanLoopRes where
  visited : List (Bytes × Bytes)
  remaining : Int
  stop : ScanStop
  deriving DecidableEq

/-- The loop of `TikvClient.Scan`: while the iterator is valid and
`limit != 0`, invoke the visitor (recorded in `visited`); a false visitor
result breaks out; a failing `iter.Next` (injected by `nextFails` at the
given step index) returns early; otherwise `limit` is decremented and the
loop continues. -/
def scanLoop (each : Bytes → Bytes → Bool) (nextFails : Nat → Bool) :
    List (Bytes × Bytes) → Int → Nat → ScanLoopRes
  | [], limit, _ => ⟨[], limit, ScanStop.exhausted⟩
  | (k, v) :: rest, limit, step =>
    if limit = 0 then ⟨[], limit, ScanStop.limitZero⟩
    else if each k v = false then ⟨[(k, v)], limit, ScanStop.visitorFalse⟩
    else if nextFails step then ⟨[(k, v)], limit, ScanStop.nextError⟩
    else
      let r := scanLoop each nextFails rest (limit - 1) (step + 1)
      ⟨(k, v) :: r.visited, r.remaining, r.stop⟩

/-- Result of `TikvClient.Scan`: visited entries, the returned count
(`total - limit` in the source), and why iteration ended. -/
structure ScanRes where
  visited : List (Bytes × Bytes)
  count : Int
  stop : ScanStop
  deriving DecidableEq

/-- `TikvClient.Scan begin limit each`: begin a transaction, seek to `begin`,
run the loop, and return `total - limit` (the Go return value) as `count`. -/
def TikvClient.Scan (nextFails : Nat → Bool) (s : Store) (bg : Bytes)
    (limit : Int) (each : Bytes → Bytes → Bool) : ScanRes :=
  let r := scanLoop each nextFails (seek s bg) limit 0
  ⟨r.visited, limit - r.remaining, r.stop⟩

/-- One hex digit, exactly as Go `encoding/hex.fromHexChar` accepts it. -/
def fromHexChar (c : Nat) : Option Nat :=
  if 48 ≤ c ∧ c ≤ 57 then some (c - 48)
  else if 97 ≤ c ∧ c ≤ 102 then some (c - 87)
  else if 65 ≤ c ∧ c ≤ 70 then some (c - 55)
  else none

/-- Go `hex.Decode` on a two-character slice: one output byte, or an error. -/
def hexDecodePair (c1 c2 : Nat) : Option Nat :=
  match fromHexChar c1, fromHexChar c2 with
  | some a, some b => some (a * 16 + b)
  | _, _ => none

/-- The loop of `hexEscape`, with `tune` the flag recording a pending
backslash. `none` models the `log.Fatalln` call reached on a malformed
`\xHH` (the whole process aborts there). -/
def hexEscapeAux : Bool → List Nat → Option (List Nat)
  | _, [] => some []
  | tune, c :: rest =>
    if c = 92 then
      if tune then (fun t => 92 :: t) <$> hexEscapeAux false rest
      else hexEscapeAux true rest
    else if c = 120 then
      if tune then
        match rest with
        | c1 :: c2 :: rest' =>
          match hexDecodePair c1 c2 with
          | some b => (fun t => b :: t) <$> hexEscapeAux false rest'
          | none => none
        | other => (fun t => 120 :: t) <$> hexEscapeAux false other
      else (fun t => 120 :: t) <$> hexEscapeAux false rest
    else (fun t => c :: t) <$> hexEscapeAux false rest
termination_by structural _ l => l

/-- `hexEscape` from `main.go`: decode `\xHH` hex literals in a command
argument to raw bytes; `none` models the fatal process abort on invalid hex. -/
def hexEscape (s : List Nat) : Option (List Nat) := hexEscapeAux false s

/-- The behaviour of `hexEscape`, stated input-by-input: `\xHH` with two hex
digits becomes the byte 0xHH, `\\` becomes a single backslash, a backslash
before anything else is dropped (`\c` becomes `c`, `\x` with fewer than two
trailing characters becomes a literal `x`, a trailing `\` disappears), every
character not reached behind a backslash is kept, and a `\xHH` whose digits
are not valid hex aborts the process (`none`). -/
def hexUnescapeSpec : List Nat → Option (List Nat)
  | [] => some []
  | c :: rest =>
    if c = 92 then
      match rest with
      | [] => some []
      | c' :: rest' =>
        if c' = 92 then (fun t => 92 :: t) <$> hexUnescapeSpec rest'
        else if c' = 120 then
          match rest' with
          | c1 :: c2 :: rest2 =>
            match hexDecodePair c1 c2 with
            | some b => (fun t => b :: t) <$> hexUnescapeSpec rest2
            | none => none
          | other => (fun t => 120 :: t) <$> hexUnescapeSpec other
        else (fun t => c' :: t) <$> hexUnescapeSpec rest'
    else (fun t => c :: t) <$> hexUnescapeSpec rest
termination_by structural l => l

/-- Scan options of the command shell (`-n` limit, `-p` prefix-match flag,
`-u` until bound, `-d` delete-while-scanning flag). -/
structure ScanOpts where
  limit : Int
  pfx : Bool
  til : Bytes
  del : Bool
  deriving DecidableEq

/-- The visitor closure built by `command.scan`: stop on a key that does not
extend the begin key when the prefix flag is set, stop on a key above the
until bound when one is given, otherwise print the pair and continue. -/
def command.scanVisitor (opts : ScanOpts) (bg : Bytes) (key _val : Bytes) : Bool :=
  if opts.pfx && !bytesHasPfx key bg then false
  else if !opts.til.isEmpty && bytesLt opts.til key then false
  else true

/-- Observable shell output events. -/
inductive Ev
  | printedKey (k : Bytes)
  | printedVal (v : Bytes)
  | printedErr
  | printedKV (k v : Bytes)
  | printedTotal (n : Int)
  | keyRequired
  | logUnknown
  deriving DecidableEq

/-- The loop of `command.get`: print the escaped key, read it, print the
value; on a read error print the error and stop the loop; `none` models the
fatal abort inside `hexEscape`. -/
def command.getLoop (st : Store) : List Bytes → Option (List Ev)
  | [] => some []
  | a :: rest =>
    match hexEscape a with
    | none => none
    | some k =>
      match (TikvClient.Get false st k).1 with
      | Except.error _ => some [Ev.printedKey k, Ev.printedErr]
      | Except.ok v =>
        (fun evs => Ev.printedKey k :: Ev.printedVal v :: evs) <$>
          command.getLoop st rest

/-- `command.get`: complain when no key is given, then run the loop. -/
def command.get (st : Store) (args : List Bytes) : Option (List Ev) :=
  (fun evs => (if args.isEmpty then [Ev.keyRequired] else []) ++ evs) <$>
    command.getLoop st args

/-- `command.set`: with exactly two arguments, hex-unescape both and write;
with any other arity return silently. -/
def command.set (st : Store) (args : List Bytes) : Option (Store × List Ev) :=
  match args with
  | [a, b] =>
    match hexEscape a with
    | none => none
    | some k =>
      match hexEscape b with
      | none => none
      | some v =>
        match TikvClient.Set false false st k v with
        | Except.ok st' => some (st', [])
        | Except.error _ => some (st, [Ev.printedErr])
  | _ => some (st, [])

/-- The loop of `command.delete`: hex-unescape each key and delete it; an
adapter error is printed and stops the loop. -/
def command.deleteLoop (st : Store) : List Bytes → Option (Store × List Ev)
  | [] => some (st, [])
  | a :: rest =>
    match hexEscape a with
    | none => none
    | some k =>
      match TikvClient.Delete false false st k with
      | Except.ok st' => command.deleteLoop st' rest
      | Except.error _ => some (st, [Ev.printedErr])

/-- `command.delete`: complain when no key is given, then run the loop. -/
def command.delete (st : Store) (args : List Bytes) : Option (Store × List Ev) :=
  (fun r => (r.1, (if args.isEmpty then [Ev.keyRequired] else []) ++ r.2)) <$>
    command.deleteLoop st args

/-- The begin key of `command.scan`: the first positional argument used as
literal bytes (no hex unescaping), or the single byte 0 when absent. -/
def command.scanBegin (args : List Bytes) : Bytes :=
  match args with
  | [] => [0]
  | a :: _ => a

/-- `command.scan`: run the adapter scan with the shell's visitor; one
`printedKV` event per entry the visitor accepted, an error print when the
iterator failed, then the "Total scanned" line with the returned count. -/
def command.scan (nextFails : Nat → Bool) (opts : ScanOpts) (st : Store)
    (args : List Bytes) : List Ev :=
  let bg := command.scanBegin args
  let r := TikvClient.Scan nextFails st bg opts.limit (command.scanVisitor opts bg)
  ((r.visited.filter fun e => command.scanVisitor opts bg e.1 e.2).map fun e =>
    Ev.printedKV e.1 e.2)
  ++ (if r.stop = ScanStop.nextError then [Ev.printedErr] else [])
  ++ [Ev.printedTotal r.count]

/-- Go `strings.Split(line, " ")`: split on every single space character;
consecutive spaces yield empty tokens, and no other whitespace separates. -/
def splitSpace : List Char → List (List Char)
  | [] => [[]]
  | c :: rest =>
    match splitSpace rest with
    | [] => [[c]]
    | t :: ts => if c = ' ' then [] :: t :: ts else (c :: t) :: ts

/-- `String.intercalate " "` over tokens: the left inverse of `splitSpace`. -/
def joinSpace : List (List Char) → List Char
  | [] => []
  | [t] => t
  | t :: ts => t ++ ' ' :: joinSpace ts

/-- Go `[]byte(s)` for the shell's (ASCII) arguments: each character's code. -/
def strBytes (s : List Char) : Bytes := s.map Char.toNat

/-- `processLine`: split the line on single spaces and dispatch on the first
token. The scan branch's flag parsing belongs to the external flag library
and is supplied as the oracle `parse`, returning (parse-errored?, resulting
options, remaining positional arguments); on a parse error the error is
printed and `c.scan` still runs on the remaining arguments, exactly as in
the source. `none` models a `log.Fatalln` abort inside `hexEscape`. -/
def processLine
    (parse : List (List Char) → Bool × ScanOpts × List (List Char))
    (nextFails : Nat → Bool) (st : Store) (line : List Char) :
    Option (Store × List Ev) :=
  match splitSpace line with
  | [] => some (st, [])
  | cmd :: rest =>
    if cmd = "get".data then
      (fun evs => (st, evs)) <$> command.get st (rest.map strBytes)
    else if cmd = "set".data then command.set st (rest.map strBytes)
    else if cmd = "delete".data then command.delete st (rest.map strBytes)
    else if cmd = "scan".data then
      match parse rest with
      | (perr, opts, pargs) =>
        some (st, (if perr then [Ev.printedErr] else []) ++
          command.scan nextFails opts st (pargs.map strBytes))
    else some (st, [Ev.logUnknown])

/-- One iteration of the REPL loop in `main`: `quit` / `exit` are matched
against the whole line and terminate the process (`none`); any other line is
handed to `processLine`. -/
def replStep (parse : List (List Char) → Bool × ScanOpts × List (List Char))
    (nextFails : Nat → Bool) (st : Store) (line : List Char) :
    Option (Option (Store × List Ev)) :=
  if line = "exit".data ∨ line = "quit".data then none
  else some (processLine parse nextFails st line)

/-- Modelled from the spec: the adapter `Scan` variant that `command.scan` in
`main.go` invokes takes a delete-while-scanning flag, but that variant's body
is not among the source files at hand (the adapter file contains the
three-argument `Scan` without the flag). Following the spec's words — "If
deletion is requested, each visited key is deleted within the same scanning
pass." — this loop repeats the shape of `scanLoop` over the seek snapshot
and, when `del` is set, deletes each key the visitor is invoked on from the
store during the pass. It returns the visited entries and the resulting
store. -/
def scanDelLoop (each : Bytes → Bytes → Bool) (del : Bool) :
    List (Bytes × Bytes) → Int → Store → List (Bytes × Bytes) × Store
  | [], _, st => ([], st)
  | (k, v) :: rest, limit, st =>
    if limit = 0 then ([], st)
    else
      let st' := if del then storeDelete st k else st
      if each k v = false then ([(k, v)], st')
      else
        let r := scanDelLoop each del rest (limit - 1) st'
        ((k, v) :: r.1, r.2)

/-- Modelled from the spec:
`Scan(beginKey, limit, deleteWhileScanning, visit) -> (countVisited, Error)`,
restricted to the visited entries and the resulting store, which are what
the delete-while-scanning claim is about. -/
def scanWithDelete (s : Store) (bg : Bytes) (limit : Int) (del : Bool)
    (each : Bytes → Bytes → Bool) : List (Bytes × Bytes) × Store :=
  scanDelLoop each del (seek s bg) limit s

/-- The store invariant: entries in strictly ascending key order. -/
abbrev storeSorted (s : Store) : Prop :=
  List.Pairwise (fun a b : Bytes × Bytes => bytesLt a.1 b.1 = true) s

theorem storeGet_storeSet (s : Store) (k v : Bytes) :
    storeGet (storeSet s k v) k = some v := by
  induction s with
  | nil => simp [storeSet, storeGet]
  | cons e rest ih =>
    obtain ⟨k', v'⟩ := e
    by_cases h1 : bytesLt k k' = true
    · simp [storeSet, h1, storeGet]
    · by_cases h2 : k = k'
      · subst h2
        simp [storeSet, h1, storeGet]
      · simp [storeSet, h1, h2, storeGet, ih]

theorem storeGet_storeDelete_self (s : Store) (k : Bytes) :
    storeGet (storeDelete s k) k = none := by
  induction s with
  | nil => simp [storeDelete, storeGet]
  | cons e rest ih =>
    obtain ⟨k', v'⟩ := e
    by_cases h : k = k'
    · subst h
      simp [storeDelete, ih]
    · simp [storeDelete, h, storeGet, ih]

theorem storeGet_storeDelete_none (s : Store) (k k' : Bytes)
    (h : storeGet s k = none) : storeGet (storeDelete s k') k = none := by
  induction s with
  | nil => simp [storeDelete, storeGet]
  | cons e rest ih =>
    obtain ⟨a, b⟩ := e
    by_cases hka : k = a
    · simp [storeGet, hka] at h
    · simp [storeGet, hka] at h
      by_cases hk'a : k' = a
      · subst hk'a
        simp [storeDelete, ih h]
      · simp [storeDelete, hk'a, storeGet, hka, ih h]

/-- C3: for every key and value, a successful `Set(k, v)` followed by a
successful `Get(k)` returns exactly `v` (set/get round-trip over the store
state). -/
theorem set_get_roundtrip (bf cf : Bool) (s : Store) (k v : Bytes) (s' : Store)
    (h : TikvClient.Set bf cf s k v = Except.ok s') :
    (TikvClient.Get false s' k).1 = Except.ok v := by
  cases bf with
  | true => simp [TikvClient.Set] at h
  | false =>
    cases cf with
    | true => simp [TikvClient.Set] at h
    | false =>
      simp only [TikvClient.Set, Bool.false_eq_true, if_false, Except.ok.injEq] at h
      subst h
      simp [TikvClient.Get, Txn.get, Store.begin, Txn.commit, Txn.set,
        applyWrites, applyWrite, storeGet_storeSet]

/-- Witness for C3 at a concrete store, key and value. -/
theorem set_get_roundtrip_witness :
    TikvClient.Set false false [] [1] [2] = Except.ok [([1], [2])] ∧
    (TikvClient.Get false [([1], [2])] [1]).1 = Except.ok [2] :=
  ⟨rfl, set_get_roundtrip false false [] [1] [2] [([1], [2])] rfl⟩

/-- C8: `Get` never mutates the store: whichever of the three outcomes
occurs (value, not-found error, or begin failure), the store after the call
equals the store before it; moreover the read-only transaction `Get` opens
has nothing buffered, so even committing it would change nothing. -/
theorem get_no_mutation (bf : Bool) (s : Store) (k : Bytes) :
    (TikvClient.Get bf s k).2 = s ∧ Txn.commit s (Store.begin s) = s := by
  refine ⟨?_, rfl⟩
  cases bf with
  | true => rfl
  | false =>
    simp only [TikvClient.Get, Bool.false_eq_true, if_false]
    cases Txn.get (Store.begin s) k <;> rfl

theorem scanLoop_remaining (each : Bytes → Bytes → Bool) (nf : Nat → Bool) :
    ∀ (iter : List (Bytes × Bytes)) (limit : Int) (step : Nat),
      (scanLoop each nf iter limit step).remaining =
        limit - (scanLoop each nf iter limit step).visited.length +
        (if (scanLoop each nf iter limit step).stop = ScanStop.visitorFalse ∨
            (scanLoop each nf iter limit step).stop = ScanStop.nextError
          then 1 else 0) := by
  intro iter
  induction iter with
  | nil => intro limit step; simp [scanLoop]
  | cons e rest ih =>
    intro limit step
    obtain ⟨k, v⟩ := e
    by_cases h0 : limit = 0
    · simp [scanLoop, h0]
    · by_cases h1 : each k v = false
      · simp [scanLoop, h0, h1]
      · by_cases h2 : nf step = true
        · simp [scanLoop, h0, h1, h2]
        · have := ih (limit - 1) (step + 1)
          simp only [scanLoop, h0, if_false, h1, h2] at this ⊢
          split at this <;> split <;> simp_all <;> omega

/-- C9: the count returned by the adapter's `Scan` is the number of fully
completed loop iterations: when the loop ends because the visitor returned
false or because advancing the iterator failed, the final visited entry is
excluded from the returned count even though the visitor was invoked on it
(it appears in `visited`), and in that case at least one entry was visited. -/
theorem scan_count_completed (nf : Nat → Bool) (s : Store) (bg : Bytes)
    (limit : Int) (each : Bytes → Bytes → Bool) :
    ((TikvClient.Scan nf s bg limit each).count =
      ((TikvClient.Scan nf s bg limit each).visited.length : Int) -
      (if (TikvClient.Scan nf s bg limit each).stop = ScanStop.visitorFalse ∨
          (TikvClient.Scan nf s bg limit each).stop = ScanStop.nextError
        then 1 else 0))
    ∧ ((TikvClient.Scan nf s bg limit each).stop = ScanStop.visitorFalse ∨
        (TikvClient.Scan nf s bg limit each).stop = ScanStop.nextError →
        1 ≤ (TikvClient.Scan nf s bg limit each).visited.length) := by
  constructor
  · have h := scanLoop_remaining each nf (seek s bg) limit 0
    simp only [TikvClient.Scan]
    rw [h]
    split <;> omega
  · simp only [TikvClient.Scan]
    intro hstop
    generalize seek s bg = iter at hstop ⊢
    cases iter with
    | nil => simp [scanLoop] at hstop
    | cons e rest =>
      obtain ⟨k, v⟩ := e
      by_cases h0 : limit = 0
      · simp [scanLoop, h0] at hstop
      · by_cases h1 : each k v = false
        · simp [scanLoop, h0, h1]
        · by_cases h2 : nf 0 = true
          · simp [scanLoop, h0, h1, h2]
          · simp [scanLoop, h0, h1, h2]

/-- Witness for C9: a scan whose visitor always refuses visits one entry and
returns count 0. -/
theorem scan_count_completed_witness :
    (TikvClient.Scan (fun _ => false) [([98], [5])] [98] 3 (fun _ _ => false)).count =
      ((TikvClient.Scan (fun _ => false) [([98], [5])] [98] 3
        (fun _ _ => false)).visited.length : Int) - 1
    ∧ 1 ≤ (TikvClient.Scan (fun _ => false) [([98], [5])] [98] 3
        (fun _ _ => false)).visited.length := by
  have h := scan_count_completed (fun _ => false) [([98], [5])] [98] 3 (fun _ _ => false)
  exact ⟨by rw [h.1]; decide, h.2 (Or.inl (by decide))⟩

theorem scanDelLoop_none_preserved (each : Bytes → Bytes → Bool) (del : Bool) :
    ∀ (iter : List (Bytes × Bytes)) (limit : Int) (st : Store) (k : Bytes),
      storeGet st k = none →
      storeGet (scanDelLoop each del iter limit st).2 k = none := by
  intro iter
  induction iter with
  | nil => intro limit st k h; simpa [scanDelLoop] using h
  | cons e rest ih =>
    intro limit st k h
    obtain ⟨a, b⟩ := e
    by_cases h0 : limit = 0
    · simpa [scanDelLoop, h0] using h
    · have hst' : storeGet (if del then storeDelete st a else st) k = none := by
        cases del with
        | true => simpa using storeGet_storeDelete_none st k a h
        | false => simpa using h
      by_cases h1 : each a b = false
      · simpa [scanDelLoop, h0, h1] using hst'
      · simpa [scanDelLoop, h0, h1] using ih (limit - 1) _ k hst'

theorem scanDelLoop_deletes (each : Bytes → Bytes → Bool) :
    ∀ (iter : List (Bytes × Bytes)) (limit : Int) (st : Store) (e : Bytes × Bytes),
      e ∈ (scanDelLoop each true iter limit st).1 →
      storeGet (scanDelLoop each true iter limit st).2 e.1 = none := by
  intro iter
  induction iter with
  | nil => intro limit st e he; simp [scanDelLoop] at he
  | cons a rest ih =>
    intro limit st e he
    obtain ⟨k, v⟩ := a
    by_cases h0 : limit = 0
    · simp [scanDelLoop, h0] at he
    · by_cases h1 : each k v = false
      · simp [scanDelLoop, h0, h1] at he ⊢
        subst he
        exact storeGet_storeDelete_self st k
      · simp [scanDelLoop, h0, h1] at he ⊢
        rcases he with he | he
        · subst he
          exact scanDelLoop_none_preserved each true rest (limit - 1)
            (storeDelete st k) k (storeGet_storeDelete_self st k)
        · exact ih (limit - 1) (storeDelete st k) e he

/-- C1: when `Scan` is invoked with the delete-while-scanning flag set, every
key visited during the scan is absent from the store the pass leaves behind:
each visited key was deleted within the same scanning pass (adapter variant
modelled from the spec, see `scanDelLoop`). -/
theorem scan_delete_deletes_visited (s : Store) (bg : Bytes) (limit : Int)
    (each : Bytes → Bytes → Bool) (e : Bytes × Bytes)
    (he : e ∈ (scanWithDelete s bg limit true each).1) :
    storeGet (scanWithDelete s bg limit true each).2 e.1 = none :=
  scanDelLoop_deletes each (seek s bg) limit s e he

/-- Witness for C1 at a concrete store: the single visited key is gone. -/
theorem scan_delete_deletes_visited_witness :
    ([97], ([1] : Bytes)) ∈ (scanWithDelete [([97], [1])] [97] (-1) true
      (fun _ _ => true)).1
    ∧ storeGet (scanWithDelete [([97], [1])] [97] (-1) true
      (fun _ _ => true)).2 [97] = none :=
  ⟨by decide, scan_delete_deletes_visited [([97], [1])] [97] (-1)
    (fun _ _ => true) ([97], [1]) (by decide)⟩

theorem scanLoop_visited_take (each : Bytes → Bytes → Bool) (nf : Nat → Bool) :
    ∀ (iter : List (Bytes × Bytes)) (limit : Int) (step : Nat),
      (scanLoop each nf iter limit step).visited =
        iter.take (scanLoop each nf iter limit step).visited.length := by
  intro iter
  induction iter with
  | nil => intro limit step; simp [scanLoop]
  | cons e rest ih =>
    intro limit step
    obtain ⟨k, v⟩ := e
    by_cases h0 : limit = 0
    · simp [scanLoop, h0]
    · by_cases h1 : each k v = false
      · simp [scanLoop, h0, h1]
      · by_cases h2 : nf step = true
        · simp [scanLoop, h0, h1, h2]
        · have := ih (limit - 1) (step + 1)
          simp [scanLoop, h0, h1, h2, List.take_succ_cons]
          exact this

theorem scanLoop_length_le (each : Bytes → Bytes → Bool) (nf : Nat → Bool) :
    ∀ (iter : List (Bytes × Bytes)) (limit : Int) (step : Nat), 0 ≤ limit →
      ((scanLoop each nf iter limit step).visited.length : Int) ≤ limit := by
  intro iter
  induction iter with
  | nil => intro limit step h; simpa [scanLoop] using h
  | cons e rest ih =>
    intro limit step h
    obtain ⟨k, v⟩ := e
    by_cases h0 : limit = 0
    · simp [scanLoop, h0]
    · by_cases h1 : each k v = false
      · simp [scanLoop, h0, h1]; omega
      · by_cases h2 : nf step = true
        · simp [scanLoop, h0, h1, h2]; omega
        · have := ih (limit - 1) (step + 1) (by omega)
          simp [scanLoop, h0, h1, h2]
          omega

theorem scanLoop_stop_all_true (each : Bytes → Bytes → Bool) (nf : Nat → Bool)
    (he : ∀ k v, each k v = true) (hn : ∀ n, nf n = false) :
    ∀ (iter : List (Bytes × Bytes)) (limit : Int) (step : Nat),
      (scanLoop each nf iter limit step).stop ≠ ScanStop.visitorFalse ∧
      (scanLoop each nf iter limit step).stop ≠ ScanStop.nextError := by
  intro iter
  induction iter with
  | nil => intro limit step; simp [scanLoop]
  | cons e rest ih =>
    intro limit step
    obtain ⟨k, v⟩ := e
    by_cases h0 : limit = 0
    · simp [scanLoop, h0]
    · simpa [scanLoop, h0, he, hn] using ih (limit - 1) (step + 1)

/-- C2 (amended): for every sorted store, begin key, limit N ≥ 0, visitor and
iterator behaviour, `Scan(begin, N)` invokes the visitor on at most N
entries; the visited entries are an initial segment of the seek result (the
stored entries with key ≥ begin in ascending order), hence in ascending
lexicographic key order starting from the first stored key ≥ begin; when the
visitor always continues and advancing the iterator never fails, the
returned count equals the number of visited keys (in general the final
visited key is excluded from the count when the visitor rejected it or the
iterator failed after it — see the counterexample). In particular, over keys
{a1, a2, a3} a scan from "a" with limit 2 visits exactly a1 and a2 and
returns count 2. -/
theorem scan_limit_order (s : Store) (bg : Bytes) (N : Nat)
    (each : Bytes → Bytes → Bool) (nf : Nat → Bool) (hs : storeSorted s) :
    ((TikvClient.Scan nf s bg (N : Int) each).visited.length ≤ N)
    ∧ ((TikvClient.Scan nf s bg (N : Int) each).visited =
        (seek s bg).take (TikvClient.Scan nf s bg (N : Int) each).visited.length)
    ∧ List.Pairwise (fun a b : Bytes × Bytes => bytesLt a.1 b.1 = true)
        (TikvClient.Scan nf s bg (N : Int) each).visited
    ∧ ((∀ k v, each k v = true) → (∀ n, nf n = false) →
        (TikvClient.Scan nf s bg (N : Int) each).count =
          ((TikvClient.Scan nf s bg (N : Int) each).visited.length : Int))
    ∧ ((TikvClient.Scan (fun _ => false) [([97, 49], [1]), ([97, 50], [2]), ([97, 51], [3])]
          [97] 2 (fun _ _ => true)).visited = [([97, 49], [1]), ([97, 50], [2])]
        ∧ (TikvClient.Scan (fun _ => false) [([97, 49], [1]), ([97, 50], [2]), ([97, 51], [3])]
          [97] 2 (fun _ _ => true)).count = 2) := by
  refine ⟨?_, ?_, ?_, ?_, by decide, by decide⟩
  · have h := scanLoop_length_le each nf (seek s bg) (N : Int) 0 (by positivity)
    simp only [TikvClient.Scan] at h ⊢
    exact_mod_cast h
  · simpa only [TikvClient.Scan] using scanLoop_visited_take each nf (seek s bg) (N : Int) 0
  · have htake := scanLoop_visited_take each nf (seek s bg) (N : Int) 0
    simp only [TikvClient.Scan]
    rw [htake]
    have hseek : List.Pairwise (fun a b : Bytes × Bytes => bytesLt a.1 b.1 = true)
        (seek s bg) := List.Pairwise.sublist (List.filter_sublist s) hs
    exact List.Pairwise.sublist (List.take_sublist _ _) hseek
  · intro hev hnf
    have hrem := scanLoop_remaining each nf (seek s bg) (N : Int) 0
    have hstop := scanLoop_stop_all_true each nf hev hnf (seek s bg) (N : Int) 0
    simp only [TikvClient.Scan]
    rw [hrem, if_neg (by rintro (h | h) <;> [exact hstop.1 h; exact hstop.2 h])]
    omega

/-- Counterexample to C2 as stated: the visitor is invoked on one key, but
the returned count is 0, not 1 (the visitor returned false on that key). -/
theorem scan_limit_order_cex :
    (TikvClient.Scan (fun _ => false) [([97], [0])] [97] 2 (fun _ _ => false)).visited.length = 1
    ∧ (TikvClient.Scan (fun _ => false) [([97], [0])] [97] 2 (fun _ _ => false)).count = 0
    ∧ (TikvClient.Scan (fun _ => false) [([97], [0])] [97] 2 (fun _ _ => false)).count ≠
        ((TikvClient.Scan (fun _ => false) [([97], [0])] [97] 2
          (fun _ _ => false)).visited.length : Int) := by
  refine ⟨by decide, by decide, by decide⟩

/-- Witness for C2 over the {a1, a2, a3} store with an always-true visitor. -/
theorem scan_limit_order_witness :
    (TikvClient.Scan (fun _ => false) [([97, 49], [1]), ([97, 50], [2]), ([97, 51], [3])]
        [97] ((2 : Nat) : Int) (fun _ _ => true)).count =
      ((TikvClient.Scan (fun _ => false) [([97, 49], [1]), ([97, 50], [2]), ([97, 51], [3])]
        [97] ((2 : Nat) : Int) (fun _ _ => true)).visited.length : Int) :=
  (scan_limit_order [([97, 49], [1]), ([97, 50], [2]), ([97, 51], [3])] [97] 2
    (fun _ _ => true) (fun _ => false) (by decide)).2.2.2.1
    (fun _ _ => rfl) (fun _ => rfl)

theorem hexEscapeAux_cons (tune : Bool) (c : Nat) (rest : List Nat) :
    hexEscapeAux tune (c :: rest) =
      if c = 92 then
        if tune then (fun t => 92 :: t) <$> hexEscapeAux false rest
        else hexEscapeAux true rest
      else if c = 120 then
        if tune then
          match rest with
          | c1 :: c2 :: rest' =>
            match hexDecodePair c1 c2 with
            | some b => (fun t => b :: t) <$> hexEscapeAux false rest'
            | none => none
          | other => (fun t => 120 :: t) <$> hexEscapeAux false other
        else (fun t => 120 :: t) <$> hexEscapeAux false rest
      else (fun t => c :: t) <$> hexEscapeAux false rest := by
  cases rest with
  | nil => rfl
  | cons c1 r1 =>
    cases r1 with
    | nil => rfl
    | cons c2 r2 => rfl

theorem hexUnescapeSpec_cons (c : Nat) (rest : List Nat) :
    hexUnescapeSpec (c :: rest) =
      if c = 92 then
        match rest with
        | [] => some []
        | c' :: rest' =>
          if c' = 92 then (fun t => 92 :: t) <$> hexUnescapeSpec rest'
          else if c' = 120 then
            match rest' with
            | c1 :: c2 :: rest2 =>
              match hexDecodePair c1 c2 with
              | some b => (fun t => b :: t) <$> hexUnescapeSpec rest2
              | none => none
            | other => (fun t => 120 :: t) <$> hexUnescapeSpec other
          else (fun t => c' :: t) <$> hexUnescapeSpec rest'
      else (fun t => c :: t) <$> hexUnescapeSpec rest := by
  cases rest with
  | nil => rfl
  | cons c' r' =>
    cases r' with
    | nil => rfl
    | cons c1 r1 =>
      cases r1 with
      | nil => rfl
      | cons c2 r2 => rfl

theorem hexEscapeAux_spec : ∀ l : List Nat,
    hexEscapeAux false l = hexUnescapeSpec l ∧
    hexEscapeAux true l = hexUnescapeSpec (92 :: l)
  | [] => ⟨rfl, rfl⟩
  | c :: rest => by
    have ihr := hexEscapeAux_spec rest
    refine ⟨?_, ?_⟩
    · by_cases h92 : c = 92
      · subst h92
        simp only [hexEscapeAux_cons, if_pos rfl, Bool.false_eq_true, if_false]
        exact ihr.2
      · by_cases h120 : c = 120
        · subst h120
          simp [hexEscapeAux_cons, hexUnescapeSpec_cons, ihr.1]
        · simp [hexEscapeAux_cons, hexUnescapeSpec_cons, h92, h120, ihr.1]
    · by_cases h92 : c = 92
      · subst h92
        simp [hexEscapeAux_cons, hexUnescapeSpec_cons, ihr.1]
      · by_cases h120 : c = 120
        · subst h120
          cases rest with
          | nil => decide
          | cons c1 rest1 =>
            cases rest1 with
            | nil => simp [hexEscapeAux_cons, hexUnescapeSpec_cons, ihr.1]
            | cons c2 rest2 =>
              have ih2 := hexEscapeAux_spec rest2
              cases hd : hexDecodePair c1 c2 with
              | some b => simp [hexEscapeAux_cons, hexUnescapeSpec_cons, hd, ih2.1]
              | none => simp [hexEscapeAux_cons, hexUnescapeSpec_cons, hd]
        · simp [hexEscapeAux_cons, hexUnescapeSpec_cons, h92, h120, ihr.1]
termination_by l => l.length
decreasing_by all_goals simp_wf <;> omega

/-- C4 (amended): hex-escape decoding maps each `\xHH` (HH two hex digits) to
the single byte 0xHH (`\x41` decodes to byte 0x41) and each `\\` to a single
backslash; however a backslash followed by any other character is dropped
rather than left unchanged (`\a` decodes to `a`, `\x` with fewer than two
following characters to a literal `x`, a trailing backslash to nothing),
characters not reached behind a backslash are unchanged, and a `\xHH` whose
digits are not valid hex aborts the process: `hexEscape` coincides with the
input-by-input description `hexUnescapeSpec`. -/
theorem hexEscape_spec (l : List Nat) :
    hexEscape l = hexUnescapeSpec l
    ∧ hexEscape [92, 120, 52, 49] = some [65]
    ∧ hexEscape [92, 92] = some [92] :=
  ⟨(hexEscapeAux_spec l).1, by decide, by decide⟩

/-- Counterexample to C4 as stated: on `\a` (bytes 92, 97) the code drops the
backslash — the input contains no `\xHH` and no `\\`, yet it is not left
unchanged. -/
theorem hexEscape_cex :
    hexEscape [92, 97] = some [97] ∧ some [97] ≠ some ([92, 97] : Bytes) :=
  ⟨by decide, by decide⟩

theorem scanVisitor_pfx_only (l : Int) (d : Bool) (bg k v : Bytes) :
    command.scanVisitor ⟨l, true, [], d⟩ bg k v = bytesHasPfx k bg := by
  cases h : bytesHasPfx k bg <;> simp [command.scanVisitor, h]

theorem dropWhile_cons_head_false {α : Type} (p : α → Bool) :
    ∀ (l : List α) (x : α) (xs : List α), l.dropWhile p = x :: xs → p x = false := by
  intro l
  induction l with
  | nil => intro x xs h; simp at h
  | cons a as ih =>
    intro x xs h
    by_cases hp : p a = true
    · rw [List.dropWhile_cons, if_pos hp] at h
      exact ih x xs h
    · rw [List.dropWhile_cons, if_neg hp] at h
      obtain ⟨rfl, -⟩ := List.cons.inj h
      simpa using hp

theorem filter_takeWhile_extra {α : Type} (p : α → Bool) (l : List α) :
    (l.takeWhile p ++ (l.dropWhile p).take 1).filter p = l.takeWhile p := by
  rw [List.filter_append]
  have h1 : (l.takeWhile p).filter p = l.takeWhile p :=
    List.filter_eq_self.mpr fun a ha => List.mem_takeWhile_imp ha
  have h2 : ((l.dropWhile p).take 1).filter p = [] := by
    cases hd : l.dropWhile p with
    | nil => simp
    | cons x xs => simp [dropWhile_cons_head_false p l x xs hd]
  rw [h1, h2, List.append_nil]

theorem scanLoop_neg_limit (pe : Bytes × Bytes → Bool) (each : Bytes → Bytes → Bool)
    (hpe : ∀ k v, each k v = pe (k, v)) (nf : Nat → Bool) (hn : ∀ n, nf n = false) :
    ∀ (iter : List (Bytes × Bytes)) (limit : Int) (step : Nat), limit < 0 →
      (scanLoop each nf iter limit step).visited =
        iter.takeWhile pe ++ (iter.dropWhile pe).take 1 := by
  intro iter
  induction iter with
  | nil => intro limit step h; simp [scanLoop]
  | cons e rest ih =>
    intro limit step hneg
    obtain ⟨k, v⟩ := e
    have h0 : ¬(limit = 0) := by omega
    by_cases h1 : pe (k, v) = true
    · have he : ¬(each k v = false) := by simp [hpe, h1]
      simp [scanLoop, h0, he, hn, List.takeWhile_cons, List.dropWhile_cons, h1]
      exact ih (limit - 1) (step + 1) (by omega)
    · have he : each k v = false := by
        rw [hpe]
        revert h1
        cases pe (k, v) <;> simp
      simp [scanLoop, h0, he, List.takeWhile_cons, List.dropWhile_cons, h1]

/-- C5: scanning with the prefix flag set (until bound unset, unbounded
limit), the printed entries are exactly the maximal leading run of seek
entries whose keys extend the begin key — so only prefix-matching keys are
printed — and iteration stops at the first non-matching key: the loop
touches that run plus at most the one entry the visitor rejected, and
nothing beyond it (it does not skip past a non-matching key and continue). -/
theorem scan_prefix_filter (s : Store) (bg : Bytes) :
    (TikvClient.Scan (fun _ => false) s bg (-1)
        (command.scanVisitor ⟨-1, true, [], false⟩ bg)).visited =
      (seek s bg).takeWhile (fun e => bytesHasPfx e.1 bg) ++
        ((seek s bg).dropWhile (fun e => bytesHasPfx e.1 bg)).take 1
    ∧ ((TikvClient.Scan (fun _ => false) s bg (-1)
        (command.scanVisitor ⟨-1, true, [], false⟩ bg)).visited.filter
          (fun e => command.scanVisitor ⟨-1, true, [], false⟩ bg e.1 e.2)) =
      (seek s bg).takeWhile (fun e => bytesHasPfx e.1 bg)
    ∧ (((TikvClient.Scan (fun _ => false) s bg (-1)
        (command.scanVisitor ⟨-1, true, [], false⟩ bg)).visited.filter
          (fun e => command.scanVisitor ⟨-1, true, [], false⟩ bg e.1 e.2)).all
        (fun e => bytesHasPfx e.1 bg)) = true := by
  have hfun : (fun e : Bytes × Bytes =>
      command.scanVisitor ⟨-1, true, [], false⟩ bg e.1 e.2) =
      (fun e : Bytes × Bytes => bytesHasPfx e.1 bg) := by
    funext e
    exact scanVisitor_pfx_only (-1) false bg e.1 e.2
  have hvis : (TikvClient.Scan (fun _ => false) s bg (-1)
      (command.scanVisitor ⟨-1, true, [], false⟩ bg)).visited =
      (seek s bg).takeWhile (fun e => bytesHasPfx e.1 bg) ++
        ((seek s bg).dropWhile (fun e => bytesHasPfx e.1 bg)).take 1 := by
    simp only [TikvClient.Scan]
    exact scanLoop_neg_limit (fun e => bytesHasPfx e.1 bg) _
      (fun k v => scanVisitor_pfx_only (-1) false bg k v) _ (fun _ => rfl)
      (seek s bg) (-1) 0 (by omega)
  refine ⟨hvis, ?_, ?_⟩
  · rw [hvis, hfun]
    exact filter_takeWhile_extra _ _
  · rw [hvis, hfun, filter_takeWhile_extra]
    rw [List.all_eq_true]
    intro e he
    have := List.mem_takeWhile_imp he
    simpa using this

theorem splitSpace_ne_nil : ∀ l : List Char, splitSpace l ≠ [] := by
  intro l
  cases l with
  | nil => simp [splitSpace]
  | cons c rest =>
    cases hs : splitSpace rest with
    | nil => simp [splitSpace, hs]
    | cons t ts => by_cases hc : c = ' ' <;> simp [splitSpace, hs, hc]

theorem joinSpace_splitSpace : ∀ l : List Char, joinSpace (splitSpace l) = l := by
  intro l
  induction l with
  | nil => rfl
  | cons c rest ih =>
    cases hs : splitSpace rest with
    | nil => exact absurd hs (splitSpace_ne_nil rest)
    | cons t ts =>
      rw [hs] at ih
      by_cases hc : c = ' '
      · subst hc
        simp only [splitSpace, hs, if_pos rfl]
        show [] ++ ' ' :: joinSpace (t :: ts) = ' ' :: rest
        simp [ih]
      · simp only [splitSpace, hs, hc, if_false]
        cases ts with
        | nil =>
          show c :: t = c :: rest
          simpa using ih
        | cons t2 ts2 =>
          show (c :: t) ++ ' ' :: joinSpace (t2 :: ts2) = c :: rest
          rw [List.cons_append]
          show c :: joinSpace (t :: t2 :: ts2) = c :: rest
          rw [ih]

theorem splitSpace_no_space : ∀ l : List Char,
    ((splitSpace l).all fun t => !t.contains ' ') = true := by
  intro l
  induction l with
  | nil => rfl
  | cons c rest ih =>
    cases hs : splitSpace rest with
    | nil => exact absurd hs (splitSpace_ne_nil rest)
    | cons t ts =>
      rw [hs] at ih
      by_cases hc : c = ' '
      · subst hc
        simp only [splitSpace, hs, if_pos rfl]
        simpa using ih
      · have hcc : (' ' == c) = false := by
          rw [beq_eq_false_iff_ne]
          exact fun h => hc h.symm
        simp only [splitSpace, hs, hc, if_false]
        simp only [List.all_cons, List.contains_cons, hcc, Bool.false_or,
          Bool.and_eq_true] at ih ⊢
        exact ⟨ih.1, ih.2⟩

/-- C7 (amended): the shell tokenizes a REPL line by splitting it on every
single space character — joining the tokens back with single spaces recovers
the line (so tokenization is injective), and no token contains a space — and
dispatches on the first token to one of get / set / delete / scan / unknown,
with `quit` / `exit` matched against the whole line before tokenization. It
is not whitespace-amount insensitive: consecutive spaces produce empty
tokens that become empty-string arguments (see the counterexample). -/
theorem processLine_tokenization (l l1 l2 : List Char)
    (parse : List (List Char) → Bool × ScanOpts × List (List Char))
    (nf : Nat → Bool) (st : Store) (cmd : List Char) (rest : List (List Char)) :
    joinSpace (splitSpace l) = l
    ∧ ((splitSpace l).all fun t => !t.contains ' ') = true
    ∧ (splitSpace l1 = splitSpace l2 → l1 = l2)
    ∧ replStep parse nf st "quit".data = none
    ∧ replStep parse nf st "exit".data = none
    ∧ (splitSpace l = cmd :: rest → cmd ≠ "get".data → cmd ≠ "set".data →
        cmd ≠ "delete".data → cmd ≠ "scan".data →
        processLine parse nf st l = some (st, [Ev.logUnknown])) := by
  refine ⟨joinSpace_splitSpace l, splitSpace_no_space l, ?_, ?_, ?_, ?_⟩
  · intro h
    have h1 := joinSpace_splitSpace l1
    rw [h, joinSpace_splitSpace l2] at h1
    exact h1.symm
  · have hq : (("quit".data : List Char) = "exit".data ∨
        ("quit".data : List Char) = "quit".data) := by decide
    simp [replStep, hq]
  · have he : (("exit".data : List Char) = "exit".data ∨
        ("exit".data : List Char) = "quit".data) := Or.inl rfl
    simp [replStep, he]
  · intro hsp hg hs hd hsc
    simp [processLine, hsp, hg, hs, hd, hsc]

/-- Counterexample to C7 as stated: two lines differing only in the amount of
separating whitespace tokenize differently — the extra space yields an empty
token that is passed to the handler as an empty-string argument — so they do
not produce the same command and argument list, and the handler behaves
differently. -/
theorem processLine_whitespace_cex :
    splitSpace "get  k".data ≠ splitSpace "get k".data
    ∧ processLine (fun r => (false, ⟨-1, false, [], false⟩, r)) (fun _ => false) []
        "get  k".data ≠
      processLine (fun r => (false, ⟨-1, false, [], false⟩, r)) (fun _ => false) []
        "get k".data :=
  ⟨by decide, by decide⟩

/-- Witness for C7 at concrete lines: injectivity at "ab", and dispatch of an
unknown first token. -/
theorem processLine_tokenization_witness :
    ("ab".data : List Char) = "ab".data ∧
    processLine (fun r => (false, ⟨-1, false, [], false⟩, r)) (fun _ => false) []
      "foo".data = some ([], [Ev.logUnknown]) := by
  constructor
  · exact (processLine_tokenization "x".data "ab".data "ab".data
      (fun r => (false, ⟨-1, false, [], false⟩, r)) (fun _ => false) [] "foo".data
      ["bar".data]).2.2.1 rfl
  · exact (processLine_tokenization "foo".data "ab".data "ab".data
      (fun r => (false, ⟨-1, false, [], false⟩, r)) (fun _ => false) []
      "foo".data []).2.2.2.2.2 (by decide) (by decide) (by decide) (by decide)
      (by decide)

/-- C6 (amended): on a scan line whose flags fail to parse, the parse error
is printed but the command is NOT aborted — `command.scan` still executes on
the remaining positional arguments and reports its "Total scanned" line; and
a malformed escape sequence in a get argument is not a recoverable parse
error: it reaches `log.Fatalln` inside `hexEscape` and the whole process
aborts (modelled by `none`), so the REPL loop does not continue. -/
theorem processLine_parse_error_behaviour
    (parse : List (List Char) → Bool × ScanOpts × List (List Char))
    (nf : Nat → Bool) (st : Store) (line : List Char)
    (opts : ScanOpts) (pargs rest : List (List Char))
    (h1 : splitSpace line = "scan".data :: rest)
    (h2 : parse rest = (true, opts, pargs)) :
    processLine parse nf st line =
      some (st, Ev.printedErr :: command.scan nf opts st (pargs.map strBytes))
    ∧ (∃ n, Ev.printedTotal n ∈ command.scan nf opts st (pargs.map strBytes))
    ∧ processLine parse nf st ("get \\xzz".data) = none := by
  refine ⟨?_, ?_, ?_⟩
  · have hg : (("scan".data : List Char) ≠ "get".data) := by decide
    have hs : (("scan".data : List Char) ≠ "set".data) := by decide
    have hd : (("scan".data : List Char) ≠ "delete".data) := by decide
    simp [processLine, h1, h2, hg, hs, hd]
  · refine ⟨(TikvClient.Scan nf st (command.scanBegin (pargs.map strBytes)) opts.limit
      (command.scanVisitor opts (command.scanBegin (pargs.map strBytes)))).count, ?_⟩
    simp only [command.scan]
    exact List.mem_append_right _ (List.mem_singleton_self _)
  · have hsp : splitSpace "get \\xzz".data = ["get".data, "\\xzz".data] := by decide
    have hhe : hexEscape (strBytes "\\xzz".data) = none := by decide
    simp [processLine, hsp, command.get, command.getLoop, hhe]

/-- Counterexample to C6 as stated: with a failing flag parse over a
one-entry store, the scan operation still executes (the entry is printed and
a total of 1 is reported after the parse error), so the command was not
aborted; and a malformed `\xHH` in a get argument aborts the whole process
(`none`) rather than reporting and letting the loop continue. -/
theorem processLine_parse_error_cex :
    processLine (fun r => (true, ⟨-1, false, [], false⟩, r)) (fun _ => false)
        [([97], [98])] "scan".data =
      some ([([97], [98])],
        [Ev.printedErr, Ev.printedKV [97] [98], Ev.printedTotal 1])
    ∧ processLine (fun r => (true, ⟨-1, false, [], false⟩, r)) (fun _ => false)
        [([97], [98])] "get \\xzz".data = none :=
  ⟨by decide, by decide⟩

/-- Witness for C6 on a concrete scan line with a failing parse oracle. -/
theorem processLine_parse_error_behaviour_witness :
    processLine (fun r => (true, ⟨-1, false, [], false⟩, r)) (fun _ => false) []
        "scan".data =
      some ([], Ev.printedErr :: command.scan (fun _ => false) ⟨-1, false, [], false⟩ []
        (([] : List (List Char)).map strBytes)) :=
  (processLine_parse_error_behaviour (fun r => (true, ⟨-1, false, [], false⟩, r))
    (fun _ => false) [] "scan".data ⟨-1, false, [], false⟩ [] [] (by decide) rfl).1

/-- C10: hex-escape decoding is applied to the key/value arguments of get,
set and delete — the adapter is invoked on the decoded bytes — but not to
scan's arguments: scan's begin key is the first positional argument taken as
literal bytes (`\x41` stays the four bytes `\ x 4 1` even though it decodes
to byte 0x41), a scan with no positional argument uses the single byte 0x00
as begin key, and the until bound is compared as literal bytes (a key above
the raw bytes of `\x62` is rejected even though it is below the byte 0x62
the sequence would decode to). -/
theorem escape_applied_get_set_delete_not_scan
    (st : Store) (a b k v : Bytes) (as2 : List Bytes) :
    (hexEscape a = some k →
      command.get st [a] = some
        (match (TikvClient.Get false st k).1 with
          | Except.ok w => [Ev.printedKey k, Ev.printedVal w]
          | Except.error _ => [Ev.printedKey k, Ev.printedErr]))
    ∧ (hexEscape a = some k → hexEscape b = some v →
        command.set st [a, b] =
          some (Txn.commit st (Txn.set (Store.begin st) k v), []))
    ∧ (hexEscape a = some k →
        command.delete st [a] =
          some (Txn.commit st (Txn.delete (Store.begin st) k), []))
    ∧ command.scanBegin (a :: as2) = a
    ∧ command.scanBegin [] = [0]
    ∧ (hexEscape (strBytes "\\x41".data) = some [65]
        ∧ strBytes "\\x41".data ≠ [65])
    ∧ (command.scanVisitor ⟨-1, false, strBytes "\\x62".data, false⟩ [] [97] [] = false
        ∧ hexEscape (strBytes "\\x62".data) = some [98]
        ∧ bytesLt [97] [98] = true) := by
  refine ⟨?_, ?_, ?_, rfl, rfl, ⟨by decide, by decide⟩, by decide, by decide, by decide⟩
  · intro h
    cases hres : (TikvClient.Get false st k).1 with
    | ok w => simp [command.get, command.getLoop, h, hres]
    | error e => simp [command.get, command.getLoop, h, hres]
  · intro ha hb
    simp [command.set, ha, hb, TikvClient.Set]
  · intro ha
    simp [command.delete, command.deleteLoop, ha, TikvClient.Delete]

/-- Witness for C10: the escaped argument `\x41` reaches the adapter as the
single byte 0x41 for get and set. -/
theorem escape_applied_witness :
    command.get [] [strBytes "\\x41".data] =
      some [Ev.printedKey [65], Ev.printedErr]
    ∧ command.set [] [strBytes "\\x41".data, strBytes "\\x41".data] =
      some (Txn.commit [] (Txn.set (Store.begin []) [65] [65]), []) := by
  constructor
  · have h := (escape_applied_get_set_delete_not_scan [] (strBytes "\\x41".data)
      (strBytes "\\x41".data) [65] [65] []).1 (by decide)
    simpa using h
  · exact (escape_applied_get_set_delete_not_scan [] (strBytes "\\x41".data)
      (strBytes "\\x41".data) [65] [65] []).2.1 (by decide) (by decide)
